import Mathlib

/-!
Shallow embedding of the kdlc converter (src/main.go): the KDL-tree to
JSON transcoder (`convertKDLToJSON`, `convertNodeToValue`, `convertValue`,
`getArgName`) and the `@include` preprocessor (`processIncludes`).

Modelling conventions:
* Parsed scalar values (`document.Value.ResolvedValue()`) are an inductive
  `Resolved`; the float64 payload is carried as its opaque textual token,
  since the converter only moves floats around and never computes with them.
  A Go `*document.Value` (a possibly-nil pointer) is `Option KValue`.
* Go maps under construction (`map[string]interface{}`) are association
  lists with overwrite-on-insert (`insertKV`); final JSON marshalling
  (key sorting, indentation) is out of scope, as in the spec.
* `node.Properties` (a Go map with unique keys) is a key/value list;
  theorems that need uniqueness of property names state it explicitly.
* The run-wide argument-name table (`argNameMap`, set once from flags) is
  threaded as an explicit parameter `cfg : Nat → Option String`.
* File contents are `List Char` (Go strings are byte strings; the source
  only splits on '\n' and scans ASCII, so a character list is faithful);
  `filepath.Abs`/`Dir`/`Join` are an abstract `PathModel` (the OS path
  syntax is an external collaborator in the spec), with `Abs` total: its
  only failure mode in Go is a failing getwd syscall.
* The recursion of `processIncludes` is bounded by explicit fuel; fuel
  exhaustion is the distinguished error `IncErr.fuel`, never returned by
  the Go code, and theorems quantify over sufficient fuel.
-/

namespace KDLC

/-- JSON values produced by the converter (`interface{}` trees handed to
`json.MarshalIndent`). Objects are association lists built by
Go-map-style insertion. -/
inductive Json where
  | str (s : String)
  | int (n : Int)
  | float (tok : String)
  | bool (b : Bool)
  | null
  | arr (xs : List Json)
  | obj (fields : List (String × Json))

/-- True for object values. -/
def Json.isObj : Json → Bool
  | .obj _ => true
  | _ => false

/-- True for scalar (non-object, non-array) values. -/
def Json.isScalar : Json → Bool
  | .obj _ => false
  | .arr _ => false
  | _ => true

/-- Result of `document.Value.ResolvedValue()`: the type switch in
`convertValue` distinguishes string, int64, float64, bool, nil and a
default (unrecognized) case. -/
inductive Resolved where
  | str (s : String)
  | int (n : Int)
  | float (tok : String)
  | bool (b : Bool)
  | null
  | other
  deriving DecidableEq

/-- A non-nil `document.Value`: its resolved scalar plus its textual
rendering `value.String()`, used by the default branch of the switch. -/
structure KValue where
  resolved : Resolved
  text : String
  deriving DecidableEq

/-- A parsed KDL node (`document.Node`): name, positional arguments,
properties and child nodes. -/
structure Node where
  name : String
  args : List (Option KValue)
  props : List (String × Option KValue)
  children : List Node

/-- `convertValue`: scalar conversion; a nil pointer and a resolved nil
both become JSON null, unrecognized types fall back to the textual
rendering as a string. -/
def convertValue : Option KValue → Json
  | none => .null
  | some v =>
    match v.resolved with
    | .str s => .str s
    | .int n => .int n
    | .float tok => .float tok
    | .bool b => .bool b
    | .null => .null
    | .other => .str v.text

/-- `getArgName`: the configured name for a 1-based argument index, with
fallback `fmt.Sprintf("arg%d", index)`. -/
def getArgName (cfg : Nat → Option String) (index : Nat) : String :=
  match cfg index with
  | some name => name
  | none => "arg" ++ toString index

/-- The initial `argNameMap` (defaults `arg1`..`arg5`, before flag
overrides). -/
def defaultArgNames : Nat → Option String := fun i =>
  if 1 ≤ i ∧ i ≤ 5 then some ("arg" ++ toString i) else none

/-- First binding of a key in an association list (Go map lookup, since
insertion keeps keys unique). -/
def lookupG {α : Type} : List (String × α) → String → Option α
  | [], _ => none
  | p :: ps, k => if p.1 = k then some p.2 else lookupG ps k

/-- Last binding of a key in a key/value list: the value a sequence of
Go map stores for that key leaves in the map. -/
def lastG {α : Type} : List (String × α) → String → Option α
  | [], _ => none
  | p :: ps, k =>
    match lastG ps k with
    | some v => some v
    | none => if p.1 = k then some p.2 else none

/-- Go map store `m[k] = v`: overwrite the existing binding or add one. -/
def insertKV {α : Type} : List (String × α) → String → α → List (String × α)
  | [], k, v => [(k, v)]
  | p :: ps, k, v => if p.1 = k then (k, v) :: ps else p :: insertKV ps k v

/-- Sequence of Go map stores. -/
def insertAll {α : Type} (m : List (String × α)) (ps : List (String × α)) :
    List (String × α) :=
  ps.foldl (fun m p => insertKV m p.1 p.2) m

/-- One step of `groups[key] = append(groups[key], x)`. -/
def addGroup {α : Type} : List (String × List α) → String → α → List (String × List α)
  | [], k, x => [(k, [x])]
  | g :: gs, k, x =>
    if g.1 = k then (g.1, g.2 ++ [x]) :: gs else g :: addGroup gs k x

/-- Grouping loop of `convertKDLToJSON`/`convertNodeToValue`: bucket a
sequence of named items by name, each bucket in original order. -/
def groupPairs {α : Type} (ps : List (String × α)) : List (String × List α) :=
  ps.foldl (fun gs p => addGroup gs p.1 p.2) []

/-- Proof-layer helper describing one grouping pass: the bucket contents
for a key after folding, given its previous contents. -/
def combineG {α : Type} : Option (List α) → List α → Option (List α)
  | none, [] => none
  | none, l => some l
  | some xs, l => some (xs ++ l)

/-- Per-group output: a single node's value is used bare, two or more
become a JSON array in original order. -/
def groupValue : List Json → Json
  | [v] => v
  | vs => Json.arr vs

/-- Fields contributed by a list of name groups. -/
def groupedFields (gs : List (String × List Json)) : List (String × Json) :=
  gs.map (fun g => (g.1, groupValue g.2))

/-- Argument loop `for i, arg := range node.Arguments` starting at 0-based
index `i`: keys via `getArgName(i+1)`. -/
def argPairsFrom (cfg : Nat → Option String) : Nat → List (Option KValue) →
    List (String × Json)
  | _, [] => []
  | i, a :: as => (getArgName cfg (i + 1), convertValue a) :: argPairsFrom cfg (i + 1) as

/-- Property loop `for name, value := range node.Properties`. -/
def propPairs (props : List (String × Option KValue)) : List (String × Json) :=
  props.map (fun p => (p.1, convertValue p.2))

mutual
/-- `convertNodeToValue`: the four-way shape cascade. Children present →
object (arguments, then properties, then grouped children); else
properties present → object (arguments then properties); else ≥2
arguments → array; 1 argument → bare scalar; none → null.

The Go code groups child nodes and then converts each group member; here
children are converted to (name, value) pairs first and the pairs are
grouped, which yields the same buckets since conversion never touches the
name used for grouping (lemma `groupPairs_map_val` below makes the
commutation precise). -/
def convertNodeToValue (cfg : Nat → Option String) : Node → Json
  | .mk _ args props children =>
    if children.length > 0 then
      Json.obj
        (insertAll
          (let obj1 := if args.length > 0 then insertAll [] (argPairsFrom cfg 0 args) else []
           if props.length > 0 then insertAll obj1 (propPairs props) else obj1)
          (groupedFields (groupPairs (convertNodes cfg children))))
    else if props.length > 0 then
      Json.obj
        (insertAll
          (if args.length > 0 then insertAll [] (argPairsFrom cfg 0 args) else [])
          (propPairs props))
    else if args.length > 1 then
      Json.arr (args.map convertValue)
    else
      match args with
      | [a] => convertValue a
      | _ => Json.null

/-- Conversion of a sibling list to (name, converted value) pairs. -/
def convertNodes (cfg : Nat → Option String) : List Node → List (String × Json)
  | [] => []
  | c :: cs => (c.name, convertNodeToValue cfg c) :: convertNodes cfg cs
end

/-- Object fields for a node that has children, as a named handle for
theorem statements: arguments first (guarded by the source's redundant
non-empty check), then properties, then the grouped children, all stored
into one flat Go map. Identical to the children branch of
`convertNodeToValue` (lemma `convert_children_eq`). -/
def caseOneFields (cfg : Nat → Option String) (args : List (Option KValue))
    (props : List (String × Option KValue)) (children : List Node) :
    List (String × Json) :=
  let obj1 := if args.length > 0 then insertAll [] (argPairsFrom cfg 0 args) else []
  let obj2 := if props.length > 0 then insertAll obj1 (propPairs props) else obj1
  insertAll obj2 (groupedFields (groupPairs (convertNodes cfg children)))

/-- `convertKDLToJSON`: group the top-level nodes by name and emit one
key per group (bare value for a singleton group, array otherwise). The
group keys are pairwise distinct, so the association list is the Go
result map; JSON marshalling is out of scope. -/
def convertKDLToJSON (cfg : Nat → Option String) (nodes : List Node) : Json :=
  Json.obj (groupedFields (groupPairs (convertNodes cfg nodes)))

/-! Include preprocessor (`processIncludes`). -/

/-- Whitespace class of Go's RE2 regexps: the `\s` in
`^\s*@include\s+"([^"]+)"` matches exactly tab, newline, form feed,
carriage return and space. -/
def goSpace (c : Char) : Bool :=
  c == ' ' || c == '\t' || c == '\n' || c == '\r' || c == Char.ofNat 12

/-- The literal `@include` marker. -/
def incMarker : List Char := "@include".data

/-- Whether `needle` is a leading prefix of `hay`. -/
def hasPrefixSeq : List Char → List Char → Bool
  | [], _ => true
  | _ :: _, [] => false
  | a :: as, b :: bs => a == b && hasPrefixSeq as bs

/-- `strings.Contains(hay, needle)` for a non-empty needle: some suffix
of `hay` starts with `needle`. -/
def containsSeq (needle : List Char) : List Char → Bool
  | [] => hasPrefixSeq needle []
  | c :: rest => hasPrefixSeq needle (c :: rest) || containsSeq needle rest

/-- `includeRegex.FindStringSubmatch(line)` for the anchored pattern
`^\s*@include\s+"([^"]+)"`: optional leading whitespace, the literal
marker, at least one whitespace character, then a double-quoted non-empty
quote-free path, captured; the rest of the line is unconstrained (the
pattern has no end anchor). Every quantified class excludes the character
that follows it, so greedy scanning is exact. -/
def matchInclude (line : List Char) : Option String :=
  let afterIndent := line.dropWhile goSpace
  if hasPrefixSeq incMarker afterIndent then
    let afterMarker := afterIndent.drop incMarker.length
    if afterMarker.takeWhile goSpace = [] then none
    else
      match afterMarker.dropWhile goSpace with
      | '"' :: afterQuote =>
        match afterQuote.takeWhile (fun c => !(c == '"')),
            afterQuote.dropWhile (fun c => !(c == '"')) with
        | [], _ => none
        | path, '"' :: _ => some (String.mk path)
        | _, _ => none
      | _ => none
  else none

/-- `strings.Split(content, "\n")`. -/
def splitOnNl : List Char → List (List Char)
  | [] => [[]]
  | c :: cs =>
    if c == '\n' then [] :: splitOnNl cs
    else
      match splitOnNl cs with
      | [] => [[c]]
      | l :: ls => (c :: l) :: ls

/-- `strings.Join(lines, "\n")`. -/
def joinNl : List (List Char) → List Char
  | [] => []
  | [l] => l
  | l :: ls => l ++ '\n' :: joinNl ls

/-- Errors of the include resolver. `wrapErr` is the
"failed to process include" wrapping of a nested failure; `fuel` is the
artificial out-of-fuel marker of the embedding. The Go `filepath.Abs`
failure branch is not modelled (see the header). -/
inductive IncErr where
  | circular (path : String)
  | readErr (path : String)
  | wrapErr (includeFile : String) (err : IncErr)
  | fuel
  deriving DecidableEq

/-- Abstract path syntax: `filepath.Abs`, `filepath.Dir` and
`filepath.Join`, external OS collaborators in the spec. -/
structure PathModel where
  abs : String → String
  dir : String → String
  join : String → String → String

/-- Abstract read-only filesystem: `os.ReadFile`. -/
def FS : Type := String → Option (List Char)

/-- The per-line loop of `processIncludes`: a line matched by the
directive regex is replaced by the recursively resolved content of the
referenced file (resolved against the current file's directory), with the
nested error wrapped; any other line passes through unchanged. The
visited set threads left to right exactly as the shared Go map mutates.
`recIncl` is the recursive call one fuel level down. -/
def procLines (recIncl : String → List String → Except IncErr (List Char × List String))
    (pm : PathModel) (filename : String) :
    List (List Char) → List String → Except IncErr (List (List Char) × List String)
  | [], included => .ok ([], included)
  | line :: rest, included =>
    match matchInclude line with
    | some includeFile =>
      match recIncl (pm.join (pm.dir filename) includeFile) included with
      | .error e => .error (.wrapErr includeFile e)
      | .ok (includedContent, included') =>
        match procLines recIncl pm filename rest included' with
        | .error e => .error e
        | .ok (out, included'') => .ok (includedContent :: out, included'')
    | none =>
      match procLines recIncl pm filename rest included with
      | .error e => .error e
      | .ok (out, included') => .ok (line :: out, included')

/-- `processIncludes`: check the absolute path against the visited set
(before any read), record it, read the file, fast-path contents without
the marker, otherwise splice line by line and re-join. -/
def processIncludes (pm : PathModel) (fs : FS) :
    Nat → String → List String → Except IncErr (List Char × List String)
  | 0, _, _ => .error .fuel
  | fuel + 1, filename, included =>
    let absPath := pm.abs filename
    if absPath ∈ included then .error (.circular filename)
    else
      match fs filename with
      | none => .error (.readErr filename)
      | some content =>
        if containsSeq incMarker content then
          match procLines (processIncludes pm fs fuel) pm filename
              (splitOnNl content) (absPath :: included) with
          | .error e => .error e
          | .ok (out, included') => .ok (joinNl out, included')
        else .ok (content, absPath :: included)

/-- A processing step of file `f` recurses into file `g`: `f` is
readable, its content passes the fast-path marker check, and one of its
lines is a directive whose path resolves to `g`. -/
def DirectiveTo (pm : PathModel) (fs : FS) (f g : String) : Prop :=
  ∃ content line inc,
    fs f = some content ∧
    containsSeq incMarker content = true ∧
    line ∈ splitOnNl content ∧
    matchInclude line = some inc ∧
    g = pm.join (pm.dir f) inc

/-- Transitive inclusion: `g` is reached from `f` by one or more
directive steps. -/
inductive ReachesInc (pm : PathModel) (fs : FS) : String → String → Prop
  | direct {f g : String} : DirectiveTo pm fs f g → ReachesInc pm fs f g
  | step {f g h : String} : DirectiveTo pm fs f g → ReachesInc pm fs g h →
      ReachesInc pm fs f h

/-! Concrete instances used by witnesses and counterexamples. -/

/-- Degenerate path model: paths are opaque names; `abs` is the identity,
`join` discards the directory. -/
def pmId : PathModel := ⟨fun p => p, fun _ => "", fun _ f => f⟩

/-- Diamond-shaped inclusion tree: `r` includes `b` and `c` as siblings,
`b` and `c` each include `d`; no file repeats on a single recursion
chain. -/
def fsDiamond : FS := fun p =>
  if p = "r" then some ("@include \"b\"\n@include \"c\"".data)
  else if p = "b" then some ("@include \"d\"".data)
  else if p = "c" then some ("@include \"d\"".data)
  else if p = "d" then some ("x".data)
  else none

/-- Self-inclusion: `r` includes itself; `a` is an include-free file. -/
def fsSelfLoop : FS := fun p =>
  if p = "r" then some ("@include \"r\"".data)
  else if p = "a" then some ("x".data)
  else none

/-- One include between plain lines. -/
def fsSplice : FS := fun p =>
  if p = "r" then some ("hello\n@include \"a\"\nbye".data)
  else if p = "a" then some ("X".data)
  else none

/-- A file with no inclusion directives. -/
def fsPlain : FS := fun p =>
  if p = "r" then some ("node 1\nother 2".data) else none

/-- Leaf sample values. -/
def vInt (n : Int) : Option KValue := some ⟨.int n, ""⟩

/-- Leaf sample values. -/
def vStr (s : String) : Option KValue := some ⟨.str s, ""⟩

/-! Lemmas about association lists with Go-map semantics. -/

theorem lookupG_insertKV_self {α : Type} (m : List (String × α)) (k : String) (v : α) :
    lookupG (insertKV m k v) k = some v := by
  induction m with
  | nil => simp [insertKV, lookupG]
  | cons p ps ih =>
    by_cases h : p.1 = k
    · simp [insertKV, h, lookupG]
    · simp [insertKV, h, lookupG, ih]

theorem lookupG_insertKV_ne {α : Type} (m : List (String × α)) {q k : String} (v : α)
    (h : q ≠ k) : lookupG (insertKV m q v) k = lookupG m k := by
  induction m with
  | nil => simp [insertKV, lookupG, h]
  | cons p ps ih =>
    by_cases hp : p.1 = q
    · simp [insertKV, hp, lookupG, h]
    · simp [insertKV, hp, lookupG, ih]

theorem lookupG_insertAll {α : Type} (ps : List (String × α)) :
    ∀ (m : List (String × α)) (k : String),
    lookupG (insertAll m ps) k =
      match lastG ps k with
      | some v => some v
      | none => lookupG m k := by
  induction ps with
  | nil => intro m k; simp [insertAll, lastG]
  | cons p ps ih =>
    intro m k
    have hfold : insertAll m (p :: ps) = insertAll (insertKV m p.1 p.2) ps := rfl
    rw [hfold, ih]
    by_cases h : p.1 = k
    · cases hl : lastG ps k with
      | some v => simp [lastG, hl]
      | none =>
        subst h
        simp [lastG, hl, lookupG_insertKV_self]
    · cases hl : lastG ps k with
      | some v => simp [lastG, hl]
      | none => simp [lastG, hl, h, lookupG_insertKV_ne m p.2 h]

theorem lastG_eq_none {α : Type} {ps : List (String × α)} {k : String}
    (h : k ∉ ps.map Prod.fst) : lastG ps k = none := by
  induction ps with
  | nil => rfl
  | cons p ps ih =>
    simp only [List.map_cons, List.mem_cons] at h
    push_neg at h
    have h1 : ¬p.1 = k := fun hh => h.1 hh.symm
    simp [lastG, ih h.2, h1]

theorem lastG_eq_lookupG {α : Type} {ps : List (String × α)}
    (h : (ps.map Prod.fst).Nodup) (k : String) :
    lastG ps k = lookupG ps k := by
  induction ps with
  | nil => rfl
  | cons p ps ih =>
    simp only [List.map_cons, List.nodup_cons] at h
    obtain ⟨hn, hnd⟩ := h
    by_cases hk : p.1 = k
    · have hnone : lastG ps k = none := lastG_eq_none (by rw [← hk]; exact hn)
      simp [lastG, lookupG, hnone, hk]
    · cases hl : lastG ps k with
      | some v => simp [lastG, lookupG, hl, hk, ← ih hnd]
      | none => simp [lastG, lookupG, hl, hk, ← ih hnd]

theorem lookupG_eq_of_mem {α : Type} {ps : List (String × α)} {k : String} {v : α}
    (hnd : (ps.map Prod.fst).Nodup) (hm : (k, v) ∈ ps) : lookupG ps k = some v := by
  induction ps with
  | nil => simp at hm
  | cons p ps ih =>
    simp only [List.map_cons, List.nodup_cons] at hnd
    obtain ⟨hn, hnd⟩ := hnd
    rcases List.mem_cons.mp hm with hh | ht
    · subst hh; simp [lookupG]
    · have hk : p.1 ≠ k := by
        intro he
        exact hn (he ▸ (List.mem_map.mpr ⟨(k, v), ht, rfl⟩))
      simp [lookupG, hk, ih hnd ht]

theorem lookupG_map_pair {α β : Type} (F : α → β) (ps : List (String × α)) (k : String) :
    lookupG (ps.map (fun p => (p.1, F p.2))) k = (lookupG ps k).map F := by
  induction ps with
  | nil => rfl
  | cons p ps ih => by_cases h : p.1 = k <;> simp [lookupG, h, ih]

/-! Lemmas about the grouping pass. -/

theorem lookupG_addGroup_self {α : Type} (gs : List (String × List α)) (k : String) (x : α) :
    lookupG (addGroup gs k x) k = some ((lookupG gs k).getD [] ++ [x]) := by
  induction gs with
  | nil => simp [addGroup, lookupG]
  | cons g gs ih =>
    by_cases h : g.1 = k
    · simp [addGroup, h, lookupG]
    · simp [addGroup, h, lookupG, ih]

theorem lookupG_addGroup_ne {α : Type} (gs : List (String × List α)) {q k : String} (x : α)
    (h : q ≠ k) : lookupG (addGroup gs q x) k = lookupG gs k := by
  induction gs with
  | nil => simp [addGroup, lookupG, h]
  | cons g gs ih =>
    by_cases hg : g.1 = q
    · simp [addGroup, hg, lookupG, h]
    · simp [addGroup, hg, lookupG, ih]

theorem combineG_push {α : Type} (l0 : Option (List α)) (x : α) (rest : List α) :
    combineG (some (l0.getD [] ++ [x])) rest = combineG l0 (x :: rest) := by
  cases l0 <;> simp [combineG]

theorem lookupG_foldl_addGroup {α : Type} (ps : List (String × α)) :
    ∀ (gs : List (String × List α)) (k : String),
    lookupG (ps.foldl (fun gs p => addGroup gs p.1 p.2) gs) k =
      combineG (lookupG gs k) ((ps.filter (fun p => p.1 == k)).map Prod.snd) := by
  induction ps with
  | nil =>
    intro gs k
    cases h : lookupG gs k <;> simp [combineG, h]
  | cons p ps ih =>
    intro gs k
    rw [List.foldl_cons, ih]
    by_cases h : p.1 = k
    · rw [List.filter_cons_of_pos (by simp [h])]
      subst h
      rw [lookupG_addGroup_self, List.map_cons, combineG_push]
    · rw [List.filter_cons_of_neg (by simp [h]), lookupG_addGroup_ne gs p.2 h]

theorem lookupG_groupPairs {α : Type} (ps : List (String × α)) (k : String) :
    lookupG (groupPairs ps) k =
      match (ps.filter (fun p => p.1 == k)).map Prod.snd with
      | [] => none
      | l => some l := by
  have := lookupG_foldl_addGroup ps ([] : List (String × List α)) k
  rw [groupPairs, this]
  cases (ps.filter (fun p => p.1 == k)).map Prod.snd <;> rfl

theorem addGroup_map_fst {α : Type} (gs : List (String × List α)) (k : String) (x : α) :
    (addGroup gs k x).map Prod.fst =
      if k ∈ gs.map Prod.fst then gs.map Prod.fst else gs.map Prod.fst ++ [k] := by
  induction gs with
  | nil => simp [addGroup]
  | cons g gs ih =>
    by_cases h : g.1 = k
    · simp [addGroup, h]
    · have h2 : ¬k = g.1 := fun hh => h hh.symm
      by_cases hm : k ∈ gs.map Prod.fst
      · simp [addGroup, h, hm, ih, h2]
      · simp [addGroup, h, hm, ih, h2]

theorem addGroup_keys_nodup {α : Type} {gs : List (String × List α)}
    (h : (gs.map Prod.fst).Nodup) (k : String) (x : α) :
    ((addGroup gs k x).map Prod.fst).Nodup := by
  rw [addGroup_map_fst]
  by_cases hm : k ∈ gs.map Prod.fst
  · simpa [hm] using h
  · simp only [hm, if_false]
    exact (List.nodup_append.mpr ⟨h, List.nodup_singleton k, by simpa using hm⟩)

theorem foldl_addGroup_keys_nodup {α : Type} (ps : List (String × α)) :
    ∀ (gs : List (String × List α)), (gs.map Prod.fst).Nodup →
    ((ps.foldl (fun gs p => addGroup gs p.1 p.2) gs).map Prod.fst).Nodup := by
  induction ps with
  | nil => intro gs h; exact h
  | cons p ps ih =>
    intro gs h
    exact ih _ (addGroup_keys_nodup h p.1 p.2)

theorem groupPairs_keys_nodup {α : Type} (ps : List (String × α)) :
    ((groupPairs ps).map Prod.fst).Nodup :=
  foldl_addGroup_keys_nodup ps [] List.nodup_nil

theorem addGroup_map_val {α β : Type} (F : α → β) (gs : List (String × List α))
    (k : String) (x : α) :
    addGroup (gs.map (fun g => (g.1, g.2.map F))) k (F x) =
      (addGroup gs k x).map (fun g => (g.1, g.2.map F)) := by
  induction gs with
  | nil => simp [addGroup]
  | cons g gs ih =>
    by_cases h : g.1 = k
    · simp [addGroup, h]
    · simp [addGroup, h, ih]

/-- The grouping pass commutes with mapping a function over the values:
grouping converted (name, value) pairs gives the same buckets as
converting the members of grouped (name, node) pairs. This is the
equivalence between the embedding's convert-then-group order and the
source's group-then-convert order. -/
theorem groupPairs_map_val {α β : Type} (F : α → β) (ps : List (String × α)) :
    groupPairs (ps.map (fun p => (p.1, F p.2))) =
      (groupPairs ps).map (fun g => (g.1, g.2.map F)) := by
  have aux : ∀ (l : List (String × α)) (gs : List (String × List α)),
      (l.map (fun p => (p.1, F p.2))).foldl (fun gs p => addGroup gs p.1 p.2)
          (gs.map (fun g => (g.1, g.2.map F))) =
        (l.foldl (fun gs p => addGroup gs p.1 p.2) gs).map (fun g => (g.1, g.2.map F)) := by
    intro l
    induction l with
    | nil => intro gs; rfl
    | cons p ps ih =>
      intro gs
      simp only [List.map_cons, List.foldl_cons]
      rw [addGroup_map_val, ih]
  simpa using aux ps []

/-! Lemmas about the transcoder. -/

theorem convertNodes_eq_map (cfg : Nat → Option String) (ns : List Node) :
    convertNodes cfg ns = ns.map (fun n => (n.name, convertNodeToValue cfg n)) := by
  induction ns with
  | nil => rfl
  | cons c cs ih => simp [convertNodes, ih]

theorem groupValue_singleton (v : Json) : groupValue [v] = v := rfl

theorem groupValue_of_two_le {l : List Json} (h : 2 ≤ l.length) :
    groupValue l = Json.arr l := by
  match l with
  | [] => simp at h
  | [v] => simp at h
  | a :: b :: t => rfl

theorem map_fst_groupedFields (gs : List (String × List Json)) :
    (groupedFields gs).map Prod.fst = gs.map Prod.fst := by
  simp [groupedFields, List.map_map]

theorem lookup_rootFields (cfg : Nat → Option String) (ns : List Node) (s : String) :
    lookupG (groupedFields (groupPairs (convertNodes cfg ns))) s =
      match ns.filter (fun m => m.name == s) with
      | [] => none
      | l => some (groupValue (l.map (convertNodeToValue cfg))) := by
  rw [groupedFields, lookupG_map_pair, lookupG_groupPairs, convertNodes_eq_map]
  rw [List.filter_map]
  have hp : ((fun p => p.1 == s) ∘ fun n => (n.name, convertNodeToValue cfg n)) =
      fun m => m.name == s := rfl
  rw [hp]
  cases hl : ns.filter (fun m => m.name == s) with
  | nil => rfl
  | cons a l => simp [List.map_map]; rfl

theorem lookup_rootFields_pos (cfg : Nat → Option String) (ns : List Node) (s : String)
    (h : ns.filter (fun m => m.name == s) ≠ []) :
    lookupG (groupedFields (groupPairs (convertNodes cfg ns))) s =
      some (groupValue ((ns.filter (fun m => m.name == s)).map (convertNodeToValue cfg))) := by
  rw [lookup_rootFields]
  cases hl : ns.filter (fun m => m.name == s) with
  | nil => exact absurd hl h
  | cons a l => rfl

theorem lookup_rootFields_none (cfg : Nat → Option String) (ns : List Node) (s : String)
    (h : ns.filter (fun m => m.name == s) = []) :
    lookupG (groupedFields (groupPairs (convertNodes cfg ns))) s = none := by
  rw [lookup_rootFields, h]

theorem convert_children_eq (cfg : Nat → Option String) (nm : String)
    (args : List (Option KValue)) (props : List (String × Option KValue))
    {children : List Node} (h : children ≠ []) :
    convertNodeToValue cfg (.mk nm args props children) =
      Json.obj (caseOneFields cfg args props children) := by
  cases children with
  | nil => exact absurd rfl h
  | cons c cs => simp [convertNodeToValue, caseOneFields]

theorem obj_fields_of_children (cfg : Nat → Option String) {n : Node}
    {flds : List (String × Json)} (hc : 0 < n.children.length)
    (h : convertNodeToValue cfg n = Json.obj flds) :
    flds = caseOneFields cfg n.args n.props n.children := by
  obtain ⟨nm, args, props, children⟩ := n
  have hne : children ≠ [] := by
    intro he
    rw [he] at hc
    simp at hc
  rw [convert_children_eq cfg nm args props hne] at h
  exact (Json.obj.injEq _ _).mp h.symm

theorem groupedFields_keys_nodup (ps : List (String × Json)) :
    ((groupedFields (groupPairs ps)).map Prod.fst).Nodup := by
  rw [map_fst_groupedFields]
  exact groupPairs_keys_nodup _

theorem lookup_caseOneFields_child (cfg : Nat → Option String)
    (args : List (Option KValue)) (props : List (String × Option KValue))
    (cs : List Node) {s : String} (h : cs.filter (fun m => m.name == s) ≠ []) :
    lookupG (caseOneFields cfg args props cs) s =
      some (groupValue ((cs.filter (fun m => m.name == s)).map (convertNodeToValue cfg))) := by
  rw [caseOneFields, lookupG_insertAll]
  rw [lastG_eq_lookupG (groupedFields_keys_nodup _), lookup_rootFields_pos cfg cs s h]

theorem lastG_caseOne_child_none (cfg : Nat → Option String) (cs : List Node) {k : String}
    (h : cs.filter (fun m => m.name == k) = []) :
    lastG (groupedFields (groupPairs (convertNodes cfg cs))) k = none := by
  rw [lastG_eq_lookupG (groupedFields_keys_nodup _), lookup_rootFields_none cfg cs k h]

theorem map_fst_propPairs (props : List (String × Option KValue)) :
    (propPairs props).map Prod.fst = props.map Prod.fst := by
  simp [propPairs, List.map_map]

theorem lastG_propPairs_none {props : List (String × Option KValue)} {k : String}
    (h : k ∉ props.map Prod.fst) : lastG (propPairs props) k = none :=
  lastG_eq_none (by rwa [map_fst_propPairs])

theorem lastG_propPairs_of_mem {props : List (String × Option KValue)} {k : String}
    {v : Option KValue} (hnd : (props.map Prod.fst).Nodup) (hm : (k, v) ∈ props) :
    lastG (propPairs props) k = some (convertValue v) := by
  have hnd2 : ((propPairs props).map Prod.fst).Nodup := by rwa [map_fst_propPairs]
  rw [lastG_eq_lookupG hnd2, propPairs, lookupG_map_pair, lookupG_eq_of_mem hnd hm]
  rfl

theorem lastG_argPairsFrom_none (cfg : Nat → Option String) (as : List (Option KValue)) :
    ∀ (i0 : Nat) (k : String), (∀ j, j < as.length → getArgName cfg (i0 + j + 1) ≠ k) →
    lastG (argPairsFrom cfg i0 as) k = none := by
  induction as with
  | nil => intro i0 k _; rfl
  | cons a as ih =>
    intro i0 k h
    have h0 : ¬getArgName cfg (i0 + 1) = k := by
      have := h 0 (by simp)
      simpa using this
    have hr : lastG (argPairsFrom cfg (i0 + 1) as) k = none := by
      refine ih (i0 + 1) k (fun j hj => ?_)
      have harith : i0 + 1 + j + 1 = i0 + (j + 1) + 1 := by omega
      rw [harith]
      exact h (j + 1) (by simp; omega)
    simp [argPairsFrom, lastG, hr, h0]

theorem lastG_argPairsFrom_uniq (cfg : Nat → Option String) (as : List (Option KValue)) :
    ∀ (i0 jstar : Nat) (hj : jstar < as.length) (k : String),
    getArgName cfg (i0 + jstar + 1) = k →
    (∀ j, j < as.length → getArgName cfg (i0 + j + 1) = k → j = jstar) →
    lastG (argPairsFrom cfg i0 as) k = some (convertValue (as.get ⟨jstar, hj⟩)) := by
  induction as with
  | nil => intro i0 jstar hj; simp at hj
  | cons a as ih =>
    intro i0 jstar hj k hk huniq
    cases jstar with
    | zero =>
      have hr : lastG (argPairsFrom cfg (i0 + 1) as) k = none := by
        refine lastG_argPairsFrom_none cfg as (i0 + 1) k (fun j hjl he => ?_)
        have harith : i0 + 1 + j + 1 = i0 + (j + 1) + 1 := by omega
        rw [harith] at he
        exact absurd (huniq (j + 1) (by simp; omega) he) (by omega)
      simp [argPairsFrom, lastG, hr, hk]
    | succ j =>
      have hlt : j < as.length := by simpa [Nat.succ_lt_succ_iff] using hj
      have hr : lastG (argPairsFrom cfg (i0 + 1) as) k =
          some (convertValue (as.get ⟨j, hlt⟩)) := by
        refine ih (i0 + 1) j hlt k ?_ ?_
        · have harith : i0 + 1 + j + 1 = i0 + (j + 1) + 1 := by omega
          rw [harith]
          exact hk
        · intro j2 hj2 he
          have harith : i0 + 1 + j2 + 1 = i0 + (j2 + 1) + 1 := by omega
          rw [harith] at he
          have := huniq (j2 + 1) (by simp; omega) he
          omega
      simp [argPairsFrom, lastG, hr]

/-! Lemmas about the include resolver. -/

theorem splitOnNl_ne_nil (s : List Char) : splitOnNl s ≠ [] := by
  cases s with
  | nil => simp [splitOnNl]
  | cons c cs =>
    simp only [splitOnNl]
    by_cases h : c == '\n'
    · simp [h]
    · simp only [h, Bool.false_eq_true, if_false]
      cases hs : splitOnNl cs <;> simp

theorem joinNl_cons (l : List Char) {ls : List (List Char)} (h : ls ≠ []) :
    joinNl (l :: ls) = l ++ '\n' :: joinNl ls := by
  cases ls with
  | nil => exact absurd rfl h
  | cons a as => rfl

theorem joinNl_splitOnNl (s : List Char) : joinNl (splitOnNl s) = s := by
  induction s with
  | nil => rfl
  | cons c cs ih =>
    by_cases h : c = '\n'
    · subst h
      simp only [splitOnNl, beq_self_eq_true, if_true]
      rw [joinNl_cons [] (splitOnNl_ne_nil cs), ih]
      rfl
    · have hb : (c == '\n') = false := by simpa using h
      simp only [splitOnNl, hb, Bool.false_eq_true, if_false]
      cases hs : splitOnNl cs with
      | nil => exact absurd hs (splitOnNl_ne_nil cs)
      | cons l ls =>
        rw [hs] at ih
        cases ls with
        | nil =>
          have hl : l = cs := ih
          rw [hl]
          rfl
        | cons l2 ls2 =>
          rw [joinNl_cons (c :: l) (by simp), List.cons_append]
          rw [joinNl_cons l (by simp)] at ih
          rw [ih]

theorem procLines_no_match
    (r : String → List String → Except IncErr (List Char × List String))
    (pm : PathModel) (f : String) (lines : List (List Char)) :
    ∀ V, (∀ line ∈ lines, matchInclude line = none) →
    procLines r pm f lines V = .ok (lines, V) := by
  induction lines with
  | nil => intro V _; rfl
  | cons l rest ih =>
    intro V h
    have hl : matchInclude l = none := h l (by simp)
    have hr := ih V (fun x hx => h x (by simp [hx]))
    simp [procLines, hl, hr]

theorem processIncludes_fuel_zero (pm : PathModel) (fs : FS) (f : String) (V : List String) :
    processIncludes pm fs 0 f V = .error .fuel := rfl

theorem processIncludes_mem_error (pm : PathModel) (fs : FS) (fuel : Nat) (f : String)
    (V : List String) (h : pm.abs f ∈ V) :
    processIncludes pm fs (fuel + 1) f V = .error (.circular f) := by
  simp [processIncludes, h]

theorem processIncludes_ok_not_mem {pm : PathModel} {fs : FS} {fuel : Nat} {f : String}
    {V : List String} {q} (h : processIncludes pm fs fuel f V = .ok q) :
    pm.abs f ∉ V := by
  cases fuel with
  | zero => simp [processIncludes] at h
  | succ fuel =>
    intro hm
    rw [processIncludes_mem_error pm fs fuel f V hm] at h
    simp at h

theorem procLines_mono {r : String → List String → Except IncErr (List Char × List String)}
    (hr : ∀ g W q, r g W = .ok q → W ⊆ q.2) (pm : PathModel) (f : String) :
    ∀ (lines : List (List Char)) (V out : _) (V' : List String),
    procLines r pm f lines V = .ok (out, V') → V ⊆ V' := by
  intro lines
  induction lines with
  | nil =>
    intro V out V' h
    simp [procLines] at h
    rw [← h.2]
    exact List.Subset.refl V
  | cons line rest ih =>
    intro V out V' h
    cases hm : matchInclude line with
    | some inc =>
      simp only [procLines, hm] at h
      cases hq : r (pm.join (pm.dir f) inc) V with
      | error e => simp [hq] at h
      | ok q =>
        simp only [hq] at h
        cases hrest : procLines r pm f rest q.2 with
        | error e => simp [hrest] at h
        | ok q2 =>
          simp only [hrest] at h
          obtain ⟨ic, V1⟩ := q
          obtain ⟨out2, V2⟩ := q2
          simp at h
          rw [← h.2]
          exact (hr _ _ _ hq).trans (ih V1 out2 V2 hrest)
    | none =>
      simp only [procLines, hm] at h
      cases hrest : procLines r pm f rest V with
      | error e => simp [hrest] at h
      | ok q2 =>
        simp only [hrest] at h
        obtain ⟨out2, V2⟩ := q2
        simp at h
        rw [← h.2]
        exact ih V out2 V2 hrest

theorem processIncludes_mono (pm : PathModel) (fs : FS) :
    ∀ (fuel : Nat) (f : String) (V : List String) (q),
    processIncludes pm fs fuel f V = .ok q → V ⊆ q.2 := by
  intro fuel
  induction fuel with
  | zero => intro f V q h; simp [processIncludes] at h
  | succ fuel ih =>
    intro f V q h
    obtain ⟨s, V'⟩ := q
    by_cases hm : pm.abs f ∈ V
    · rw [processIncludes_mem_error pm fs fuel f V hm] at h
      simp at h
    · simp only [processIncludes] at h
      rw [if_neg hm] at h
      cases hread : fs f with
      | none => simp [hread] at h
      | some content =>
        simp only [hread] at h
        by_cases hc : containsSeq incMarker content
        · simp only [hc, if_true] at h
          cases hpl : procLines (processIncludes pm fs fuel) pm f
              (splitOnNl content) (pm.abs f :: V) with
          | error e => simp [hpl] at h
          | ok q2 =>
            simp only [hpl] at h
            obtain ⟨out, V2⟩ := q2
            simp at h
            have h1 : (pm.abs f :: V) ⊆ V2 :=
              procLines_mono (fun g W q hq => ih g W q hq) pm f _ _ _ _ hpl
            show V ⊆ V'
            rw [← h.2]
            exact (List.subset_cons_self _ _).trans h1
        · simp only [hc, Bool.false_eq_true, if_false] at h
          simp at h
          show V ⊆ V'
          rw [← h.2]
          exact List.subset_cons_self _ _

theorem procLines_nodup {r : String → List String → Except IncErr (List Char × List String)}
    (hr : ∀ g W q, r g W = .ok q → W.Nodup → q.2.Nodup) (pm : PathModel) (f : String) :
    ∀ (lines : List (List Char)) (V out : _) (V' : List String),
    procLines r pm f lines V = .ok (out, V') → V.Nodup → V'.Nodup := by
  intro lines
  induction lines with
  | nil =>
    intro V out V' h hnd
    simp [procLines] at h
    rw [← h.2]
    exact hnd
  | cons line rest ih =>
    intro V out V' h hnd
    cases hm : matchInclude line with
    | some inc =>
      simp only [procLines, hm] at h
      cases hq : r (pm.join (pm.dir f) inc) V with
      | error e => simp [hq] at h
      | ok q =>
        simp only [hq] at h
        cases hrest : procLines r pm f rest q.2 with
        | error e => simp [hrest] at h
        | ok q2 =>
          simp only [hrest] at h
          obtain ⟨ic, V1⟩ := q
          obtain ⟨out2, V2⟩ := q2
          simp at h
          rw [← h.2]
          exact ih V1 out2 V2 hrest (hr _ _ _ hq hnd)
    | none =>
      simp only [procLines, hm] at h
      cases hrest : procLines r pm f rest V with
      | error e => simp [hrest] at h
      | ok q2 =>
        simp only [hrest] at h
        obtain ⟨out2, V2⟩ := q2
        simp at h
        rw [← h.2]
        exact ih V out2 V2 hrest hnd

theorem processIncludes_nodup (pm : PathModel) (fs : FS) :
    ∀ (fuel : Nat) (f : String) (V : List String) (q),
    processIncludes pm fs fuel f V = .ok q → V.Nodup → q.2.Nodup := by
  intro fuel
  induction fuel with
  | zero => intro f V q h _; simp [processIncludes] at h
  | succ fuel ih =>
    intro f V q h hnd
    obtain ⟨s, V'⟩ := q
    by_cases hm : pm.abs f ∈ V
    · rw [processIncludes_mem_error pm fs fuel f V hm] at h
      simp at h
    · simp only [processIncludes] at h
      rw [if_neg hm] at h
      cases hread : fs f with
      | none => simp [hread] at h
      | some content =>
        simp only [hread] at h
        have hnd2 : (pm.abs f :: V).Nodup := List.nodup_cons.mpr ⟨hm, hnd⟩
        by_cases hc : containsSeq incMarker content
        · simp only [hc, if_true] at h
          cases hpl : procLines (processIncludes pm fs fuel) pm f
              (splitOnNl content) (pm.abs f :: V) with
          | error e => simp [hpl] at h
          | ok q2 =>
            simp only [hpl] at h
            obtain ⟨out, V2⟩ := q2
            simp at h
            show V'.Nodup
            rw [← h.2]
            exact procLines_nodup (fun g W q hq => ih g W q hq) pm f _ _ _ _ hpl hnd2
        · simp only [hc, Bool.false_eq_true, if_false] at h
          simp at h
          show V'.Nodup
          rw [← h.2]
          exact hnd2

theorem procLines_call {r : String → List String → Except IncErr (List Char × List String)}
    (hr : ∀ g W q, r g W = .ok q → W ⊆ q.2) (pm : PathModel) (f : String) :
    ∀ (lines : List (List Char)) (V out : _) (V' : List String) (line : List Char)
      (inc : String),
    procLines r pm f lines V = .ok (out, V') → line ∈ lines →
    matchInclude line = some inc →
    ∃ V₁ q, V ⊆ V₁ ∧ r (pm.join (pm.dir f) inc) V₁ = .ok q := by
  intro lines
  induction lines with
  | nil => intro V out V' line inc _ hmem; simp at hmem
  | cons l rest ih =>
    intro V out V' line inc h hmem hminc
    cases hm : matchInclude l with
    | some inc2 =>
      simp only [procLines, hm] at h
      cases hq : r (pm.join (pm.dir f) inc2) V with
      | error e => simp [hq] at h
      | ok q =>
        simp only [hq] at h
        cases hrest : procLines r pm f rest q.2 with
        | error e => simp [hrest] at h
        | ok q2 =>
          rcases List.mem_cons.mp hmem with hh | ht
          · subst hh
            rw [hminc] at hm
            obtain rfl : inc2 = inc := by injection hm.symm
            exact ⟨V, q, List.Subset.refl V, hq⟩
          · obtain ⟨V₁, q3, hsub, hok⟩ := ih q.2 q2.1 q2.2 line inc
              (by rw [hrest]) ht hminc
            exact ⟨V₁, q3, (hr _ _ _ hq).trans hsub, hok⟩
    | none =>
      simp only [procLines, hm] at h
      cases hrest : procLines r pm f rest V with
      | error e => simp [hrest] at h
      | ok q2 =>
        rcases List.mem_cons.mp hmem with hh | ht
        · subst hh
          rw [hminc] at hm
          simp at hm
        · exact ih V q2.1 q2.2 line inc (by rw [hrest]) ht hminc

theorem processIncludes_call {pm : PathModel} {fs : FS} {fuel : Nat} {f g : String}
    {V : List String} {q} (hd : DirectiveTo pm fs f g)
    (h : processIncludes pm fs (fuel + 1) f V = .ok q) :
    ∃ V₁ q', (pm.abs f :: V) ⊆ V₁ ∧ processIncludes pm fs fuel g V₁ = .ok q' := by
  obtain ⟨content, line, inc, hread, hcont, hline, hminc, hg⟩ := hd
  by_cases hm : pm.abs f ∈ V
  · rw [processIncludes_mem_error pm fs fuel f V hm] at h
    simp at h
  · simp only [processIncludes] at h
    rw [if_neg hm] at h
    simp only [hread] at h
    simp only [hcont, if_true] at h
    cases hpl : procLines (processIncludes pm fs fuel) pm f
        (splitOnNl content) (pm.abs f :: V) with
    | error e => simp [hpl] at h
    | ok q2 =>
      subst hg
      exact procLines_call (fun g2 W q3 hq => processIncludes_mono pm fs fuel g2 W q3 hq)
        pm f (splitOnNl content) (pm.abs f :: V) q2.1 q2.2 line inc
        (by rw [hpl]) hline hminc

theorem reaches_ok {pm : PathModel} {fs : FS} {f g : String}
    (hr : ReachesInc pm fs f g) :
    ∀ (fuel : Nat) (V : List String) (q), processIncludes pm fs fuel f V = .ok q →
    ∃ fuel' V₁ q', pm.abs f ∈ V₁ ∧ V ⊆ V₁ ∧
      processIncludes pm fs fuel' g V₁ = .ok q' := by
  induction hr with
  | direct hd =>
    intro fuel V q h
    cases fuel with
    | zero => simp [processIncludes] at h
    | succ fuel =>
      obtain ⟨V₁, q', hsub, hok⟩ := processIncludes_call hd h
      exact ⟨fuel, V₁, q', hsub (List.mem_cons_self _ _),
        (List.subset_cons_self _ _).trans hsub, hok⟩
  | step hd _ ih =>
    intro fuel V q h
    cases fuel with
    | zero => simp [processIncludes] at h
    | succ fuel =>
      obtain ⟨V₁, q', hsub, hok⟩ := processIncludes_call hd h
      obtain ⟨fuel₂, V₂, q₂, _, hsub₂, hok₂⟩ := ih fuel V₁ q' hok
      exact ⟨fuel₂, V₂, q₂, hsub₂ (hsub (List.mem_cons_self _ _)),
        ((List.subset_cons_self _ _).trans hsub).trans hsub₂, hok₂⟩

theorem procLines_spec {r : String → List String → Except IncErr (List Char × List String)}
    (pm : PathModel) (f : String) :
    ∀ (lines : List (List Char)) (V out : _) (V' : List String),
    procLines r pm f lines V = .ok (out, V') →
    out.length = lines.length ∧
    ∀ i (hi : i < lines.length) (ho : i < out.length),
      (matchInclude (lines.get ⟨i, hi⟩) = none →
        out.get ⟨i, ho⟩ = lines.get ⟨i, hi⟩) ∧
      (∀ inc, matchInclude (lines.get ⟨i, hi⟩) = some inc →
        ∃ V₁ q, r (pm.join (pm.dir f) inc) V₁ = .ok q ∧ q.1 = out.get ⟨i, ho⟩) := by
  intro lines
  induction lines with
  | nil =>
    intro V out V' h
    simp [procLines] at h
    refine ⟨by rw [h.1], ?_⟩
    intro i hi
    simp at hi
  | cons line rest ih =>
    intro V out V' h
    cases hm : matchInclude line with
    | some inc2 =>
      simp only [procLines, hm] at h
      cases hq : r (pm.join (pm.dir f) inc2) V with
      | error e => simp [hq] at h
      | ok q =>
        simp only [hq] at h
        cases hrest : procLines r pm f rest q.2 with
        | error e => simp [hrest] at h
        | ok q2 =>
          simp only [hrest] at h
          obtain ⟨ic, V1⟩ := q
          obtain ⟨out2, V2⟩ := q2
          simp at h
          obtain ⟨hout, _⟩ := h
          obtain ⟨hlen, hspec⟩ := ih V1 out2 V2 hrest
          subst hout
          refine ⟨by simp [hlen], ?_⟩
          intro i hi ho
          cases i with
          | zero =>
            constructor
            · intro hnone
              simp only [List.get] at hnone
              rw [hm] at hnone
              simp at hnone
            · intro inc hinc
              simp only [List.get] at hinc ⊢
              rw [hm] at hinc
              obtain rfl : inc2 = inc := by injection hinc
              exact ⟨V, (ic, V1), hq, rfl⟩
          | succ i =>
            have hi2 : i < rest.length := by simpa [Nat.succ_lt_succ_iff] using hi
            have ho2 : i < out2.length := by simpa [Nat.succ_lt_succ_iff] using ho
            have := hspec i hi2 ho2
            simpa [List.get] using this
    | none =>
      simp only [procLines, hm] at h
      cases hrest : procLines r pm f rest V with
      | error e => simp [hrest] at h
      | ok q2 =>
        simp only [hrest] at h
        obtain ⟨out2, V2⟩ := q2
        simp at h
        obtain ⟨hout, _⟩ := h
        obtain ⟨hlen, hspec⟩ := ih V out2 V2 hrest
        subst hout
        refine ⟨by simp [hlen], ?_⟩
        intro i hi ho
        cases i with
        | zero =>
          constructor
          · intro _
            simp [List.get]
          · intro inc hinc
            simp only [List.get] at hinc
            rw [hm] at hinc
            simp at hinc
        | succ i =>
          have hi2 : i < rest.length := by simpa [Nat.succ_lt_succ_iff] using hi
          have ho2 : i < out2.length := by simpa [Nat.succ_lt_succ_iff] using ho
          have := hspec i hi2 ho2
          simpa [List.get] using this

theorem convertValue_isScalar (a : Option KValue) : (convertValue a).isScalar = true := by
  cases a with
  | none => rfl
  | some v => cases hv : v.resolved <;> simp [convertValue, hv, Json.isScalar]

/-! The claims. -/

/-- C1: for every node with at least one child, `convertNodeToValue`
returns a JSON object — never a scalar or an array — regardless of how
many arguments or properties the node has, including zero of both. -/
theorem c1_children_always_object (cfg : Nat → Option String) (n : Node)
    (h : 0 < n.children.length) :
    ∃ fields, convertNodeToValue cfg n = Json.obj fields := by
  obtain ⟨nm, args, props, children⟩ := n
  cases children with
  | nil => simp at h
  | cons c cs => exact ⟨_, convert_children_eq cfg nm args props (by simp)⟩

/-- Witness for C1: a node with one child and zero arguments and
properties converts to an object. -/
theorem c1_children_always_object_witness :
    0 < (Node.mk ("n") [] [] [Node.mk ("c") [] [] []]).children.length ∧
    ∃ fields, convertNodeToValue defaultArgNames
      (Node.mk ("n") [] [] [Node.mk ("c") [] [] []]) = Json.obj fields :=
  ⟨by decide, c1_children_always_object defaultArgNames _ (by decide)⟩

/-- C2: among siblings — the document's top-level nodes or the children
of any node — a name borne by exactly one sibling maps to that node's
bare converted value, while a name borne by two or more siblings maps to
a JSON array of their converted values in original document order. -/
theorem c2_sibling_grouping (cfg : Nat → Option String) (s : String) :
    (∀ (nodes : List Node) (flds : List (String × Json)),
      convertKDLToJSON cfg nodes = Json.obj flds →
      (∀ n, nodes.filter (fun m => m.name == s) = [n] →
        lookupG flds s = some (convertNodeToValue cfg n)) ∧
      (2 ≤ (nodes.filter (fun m => m.name == s)).length →
        lookupG flds s = some (Json.arr
          ((nodes.filter (fun m => m.name == s)).map (convertNodeToValue cfg))))) ∧
    (∀ (parent : Node) (flds : List (String × Json)),
      0 < parent.children.length →
      convertNodeToValue cfg parent = Json.obj flds →
      (∀ c, parent.children.filter (fun m => m.name == s) = [c] →
        lookupG flds s = some (convertNodeToValue cfg c)) ∧
      (2 ≤ (parent.children.filter (fun m => m.name == s)).length →
        lookupG flds s = some (Json.arr
          ((parent.children.filter (fun m => m.name == s)).map (convertNodeToValue cfg))))) := by
  constructor
  · intro nodes flds hobj
    simp only [convertKDLToJSON, Json.obj.injEq] at hobj
    subst hobj
    constructor
    · intro n hn
      rw [lookup_rootFields_pos cfg nodes s (by rw [hn]; simp), hn]
      simp [groupValue_singleton]
    · intro hlen
      rw [lookup_rootFields_pos cfg nodes s
        (by intro he; rw [he] at hlen; simp at hlen)]
      rw [groupValue_of_two_le (by simpa using hlen)]
  · intro parent flds hc hobj
    have hflds := obj_fields_of_children cfg hc hobj
    subst hflds
    constructor
    · intro c hcf
      rw [lookup_caseOneFields_child cfg parent.args parent.props parent.children
        (by rw [hcf]; simp), hcf]
      simp [groupValue_singleton]
    · intro hlen
      rw [lookup_caseOneFields_child cfg parent.args parent.props parent.children
        (by intro he; rw [he] at hlen; simp at hlen)]
      rw [groupValue_of_two_le (by simpa using hlen)]

/-- Witness for C2 at a document with one `solo` node and two `dup`
nodes, and at a parent whose children are one `only` node and two `tw`
nodes. -/
theorem c2_sibling_grouping_witness :
    lookupG (groupedFields (groupPairs (convertNodes defaultArgNames
      [Node.mk ("solo") [vInt 1] [] [], Node.mk ("dup") [vInt 2] [] [],
        Node.mk ("dup") [vInt 3] [] []]))) ("solo") =
      some (convertNodeToValue defaultArgNames (Node.mk ("solo") [vInt 1] [] [])) ∧
    lookupG (groupedFields (groupPairs (convertNodes defaultArgNames
      [Node.mk ("solo") [vInt 1] [] [], Node.mk ("dup") [vInt 2] [] [],
        Node.mk ("dup") [vInt 3] [] []]))) ("dup") =
      some (Json.arr (([Node.mk ("solo") [vInt 1] [] [], Node.mk ("dup") [vInt 2] [] [],
        Node.mk ("dup") [vInt 3] [] []].filter
          (fun m => m.name == "dup")).map (convertNodeToValue defaultArgNames))) ∧
    lookupG (caseOneFields defaultArgNames [] []
      [Node.mk ("only") [vInt 4] [] [], Node.mk ("tw") [vInt 5] [] [],
        Node.mk ("tw") [vInt 6] [] []]) ("only") =
      some (convertNodeToValue defaultArgNames (Node.mk ("only") [vInt 4] [] [])) :=
  ⟨((c2_sibling_grouping defaultArgNames ("solo")).1 _ _ rfl).1 _ (by rfl),
    ((c2_sibling_grouping defaultArgNames ("dup")).1 _ _ rfl).2 (by decide),
    ((c2_sibling_grouping defaultArgNames ("only")).2
      (Node.mk ("par") [] []
        [Node.mk ("only") [vInt 4] [] [], Node.mk ("tw") [vInt 5] [] [],
          Node.mk ("tw") [vInt 6] [] []]) _ (by decide) rfl).1 _ (by rfl)⟩

/-- C3: for a node with no children and no properties,
`convertNodeToValue` returns the single argument's converted scalar
directly (never wrapped — the result is a scalar), a JSON array of the
converted arguments in order when there are two or more, and JSON null
when there are none. -/
theorem c3_leaf_shapes (cfg : Nat → Option String) (n : Node)
    (hc : n.children = []) (hp : n.props = []) :
    (∀ a, n.args = [a] →
      convertNodeToValue cfg n = convertValue a ∧ (convertValue a).isScalar = true) ∧
    (2 ≤ n.args.length → convertNodeToValue cfg n = Json.arr (n.args.map convertValue)) ∧
    (n.args = [] → convertNodeToValue cfg n = Json.null) := by
  obtain ⟨nm, args, props, children⟩ := n
  dsimp only at hc hp
  subst hc
  subst hp
  refine ⟨?_, ?_, ?_⟩
  · intro a ha
    dsimp only at ha
    subst ha
    exact ⟨by simp [convertNodeToValue], convertValue_isScalar a⟩
  · intro hlen
    dsimp only at hlen
    obtain ⟨a, b, t, rfl⟩ : ∃ a b t, args = a :: b :: t := by
      match args, hlen with
      | a :: b :: t, _ => exact ⟨a, b, t, rfl⟩
    simp [convertNodeToValue]
  · intro ha
    dsimp only at ha
    subst ha
    simp [convertNodeToValue]

/-- Witness for C3 at leaf nodes with one, two and zero arguments. -/
theorem c3_leaf_shapes_witness :
    (convertNodeToValue defaultArgNames (Node.mk ("one") [vInt 7] [] []) =
        convertValue (vInt 7) ∧ (convertValue (vInt 7)).isScalar = true) ∧
    convertNodeToValue defaultArgNames (Node.mk ("two") [vInt 1, vInt 2] [] []) =
      Json.arr ([vInt 1, vInt 2].map convertValue) ∧
    convertNodeToValue defaultArgNames (Node.mk ("zero") [] [] []) = Json.null :=
  ⟨(c3_leaf_shapes defaultArgNames _ rfl rfl).1 (vInt 7) rfl,
    (c3_leaf_shapes defaultArgNames _ rfl rfl).2.1 (by decide),
    (c3_leaf_shapes defaultArgNames _ rfl rfl).2.2 rfl⟩

/-- C7: for a node with children, the object is one flat namespace built
in the order arguments, properties, children, with later insertions
winning: a child key always determines the value regardless of argument
and property keys; a property key beats any colliding argument key
whenever no child shares it; an argument's configured key survives only
when no property and no child uses it. -/
theorem c7_flat_namespace_collisions (cfg : Nat → Option String) (n : Node)
    (flds : List (String × Json)) (hc : 0 < n.children.length)
    (hobj : convertNodeToValue cfg n = Json.obj flds) :
    (∀ k, n.children.filter (fun m => m.name == k) ≠ [] →
      lookupG flds k = some (groupValue
        ((n.children.filter (fun m => m.name == k)).map (convertNodeToValue cfg)))) ∧
    (∀ k v, (n.props.map Prod.fst).Nodup → (k, v) ∈ n.props →
      n.children.filter (fun m => m.name == k) = [] →
      lookupG flds k = some (convertValue v)) ∧
    (∀ i (hi : i < n.args.length),
      (∀ j, j < n.args.length → getArgName cfg (j + 1) = getArgName cfg (i + 1) → j = i) →
      getArgName cfg (i + 1) ∉ n.props.map Prod.fst →
      n.children.filter (fun m => m.name == getArgName cfg (i + 1)) = [] →
      lookupG flds (getArgName cfg (i + 1)) =
        some (convertValue (n.args.get ⟨i, hi⟩))) := by
  have hflds := obj_fields_of_children cfg hc hobj
  subst hflds
  refine ⟨?_, ?_, ?_⟩
  · intro k hk
    exact lookup_caseOneFields_child cfg n.args n.props n.children hk
  · intro k v hnd hm hcf
    rw [caseOneFields, lookupG_insertAll, lastG_caseOne_child_none cfg n.children hcf]
    have hplen : n.props.length > 0 := by
      cases hps : n.props with
      | nil => rw [hps] at hm; simp at hm
      | cons p ps => simp [hps]
    rw [if_pos hplen, lookupG_insertAll, lastG_propPairs_of_mem hnd hm]
  · intro i hi huniq hnp hcf
    rw [caseOneFields, lookupG_insertAll, lastG_caseOne_child_none cfg n.children hcf]
    have halen : n.args.length > 0 := Nat.lt_of_le_of_lt (Nat.zero_le i) hi
    have hlast : lastG (argPairsFrom cfg 0 n.args) (getArgName cfg (i + 1)) =
        some (convertValue (n.args.get ⟨i, hi⟩)) := by
      refine lastG_argPairsFrom_uniq cfg n.args 0 i hi (getArgName cfg (i + 1))
        (by rw [Nat.zero_add]) ?_
      intro j hj he
      rw [Nat.zero_add] at he
      exact huniq j hj he
    by_cases hplen : n.props.length > 0
    · rw [if_pos hplen, lookupG_insertAll, lastG_propPairs_none hnp,
        if_pos halen, lookupG_insertAll, hlast]
    · rw [if_neg hplen, if_pos halen, lookupG_insertAll, hlast]

/-- Witness for C7: a property named `arg1` overrides the first
argument's key, a child key is present verbatim, and an argument key
survives when nothing collides with it. -/
theorem c7_flat_namespace_collisions_witness :
    lookupG (caseOneFields defaultArgNames [vInt 1] [("arg1", vInt 2), ("p", vInt 3)]
      [Node.mk ("c") [] [] []]) ("arg1") = some (convertValue (vInt 2)) ∧
    lookupG (caseOneFields defaultArgNames [vInt 1] [("arg1", vInt 2), ("p", vInt 3)]
      [Node.mk ("c") [] [] []]) ("c") =
      some (groupValue ([Node.mk ("c") [] [] []].map (convertNodeToValue defaultArgNames))) ∧
    lookupG (caseOneFields defaultArgNames [vStr "a"] [("p", vInt 3)]
      [Node.mk ("c") [] [] []]) ("arg1") = some (convertValue (vStr "a")) :=
  ⟨(c7_flat_namespace_collisions defaultArgNames
      (Node.mk ("n") [vInt 1] [("arg1", vInt 2), ("p", vInt 3)] [Node.mk ("c") [] [] []])
      _ (by decide) rfl).2.1 ("arg1") (vInt 2) (by decide) (by decide) (by rfl),
    (c7_flat_namespace_collisions defaultArgNames
      (Node.mk ("n") [vInt 1] [("arg1", vInt 2), ("p", vInt 3)] [Node.mk ("c") [] [] []])
      _ (by decide) rfl).1 ("c") (by exact fun h => List.cons_ne_nil _ _ h),
    (c7_flat_namespace_collisions defaultArgNames
      (Node.mk ("m") [vStr "a"] [("p", vInt 3)] [Node.mk ("c") [] [] []])
      _ (by decide) rfl).2.2 0 (by decide) (by intro j hj he; simp at hj; omega)
      (by decide) (by rfl)⟩

/-- C9: the converted value of a node depends only on its own arguments,
properties and children (and the run-wide argument-name configuration):
two nodes agreeing on those three fields convert identically, whatever
their names or sibling context; siblings only influence the grouping done
by the parent. -/
theorem c9_conversion_local (cfg : Nat → Option String) (n₁ n₂ : Node)
    (ha : n₁.args = n₂.args) (hp : n₁.props = n₂.props)
    (hc : n₁.children = n₂.children) :
    convertNodeToValue cfg n₁ = convertNodeToValue cfg n₂ := by
  obtain ⟨nm₁, args₁, props₁, children₁⟩ := n₁
  obtain ⟨nm₂, args₂, props₂, children₂⟩ := n₂
  dsimp only at ha hp hc
  subst ha
  subst hp
  subst hc
  rfl

/-- Witness for C9: two nodes differing only in their name convert to the
same value. -/
theorem c9_conversion_local_witness :
    convertNodeToValue defaultArgNames (Node.mk ("alpha") [vInt 1] [("p", vInt 2)] []) =
      convertNodeToValue defaultArgNames (Node.mk ("beta") [vInt 1] [("p", vInt 2)] []) :=
  c9_conversion_local defaultArgNames _ _ rfl rfl rfl

/-- C10: `convertValue` is total; in particular the nil value pointer is
converted to JSON null instead of failing. -/
theorem c10_convertValue_nil : convertValue none = Json.null := rfl

/-- C4 counterexample: in `fsDiamond` the file `d` is included from the
two sibling, non-ancestor branches `b` and `c` and no file repeats on any
single recursion chain, yet `processIncludes` fails with a (wrapped)
circular-include error on the second visit of `d` — refuting the claim
that such trees succeed and that only re-appearance on the current
recursion chain errors. -/
theorem c4_counterexample :
    processIncludes pmId fsDiamond 10 ("r") [] =
      .error (.wrapErr ("c") (.wrapErr ("d") (.circular ("d")))) := by rfl

/-- C4 amended: the visited set is shared by reference across the whole
expansion, so any file whose absolute path was already visited anywhere —
on the current chain or on a completed sibling branch — triggers the
circular-include error, and consequently a successful run visits every
absolute path at most once (the visited set stays duplicate-free). -/
theorem c4_amended_shared_visited (pm : PathModel) (fs : FS) :
    (∀ (fuel : Nat) (f : String) (V : List String), pm.abs f ∈ V →
      processIncludes pm fs (fuel + 1) f V = .error (.circular f)) ∧
    (∀ (fuel : Nat) (f : String) (V : List String) (q),
      processIncludes pm fs fuel f V = .ok q → V.Nodup → q.2.Nodup) :=
  ⟨fun fuel f V h => processIncludes_mem_error pm fs fuel f V h,
    fun fuel f V q h hnd => processIncludes_nodup pm fs fuel f V q h hnd⟩

/-- Witness for C4 amended: the second visit of `d` (already visited on
the sibling branch) errors, and the successful expansion of `b` keeps the
visited set duplicate-free. -/
theorem c4_amended_shared_visited_witness :
    processIncludes pmId fsDiamond 3 ("d") ["d", "b", "r"] = .error (.circular ("d")) ∧
    List.Nodup ["d", "b"] :=
  ⟨(c4_amended_shared_visited pmId fsDiamond).1 2 ("d") ["d", "b", "r"] (by decide),
    (c4_amended_shared_visited pmId fsDiamond).2 10 ("b") [] ("x".data, ["d", "b"])
      (by rfl) (by decide)⟩

/-- C5: the absolute path is checked against the visited set before the
file is read — a path already in the set fails immediately with the
circular-include error, for every filesystem, including one where the
file does not even exist — and a document whose directives reach a file
with the same absolute path as an already-visited one (itself, directly
or through a chain) can never resolve successfully, so no output is
produced. -/
theorem c5_cycle_detection (pm : PathModel) (fs : FS) :
    (∀ (fuel : Nat) (f : String) (V : List String), pm.abs f ∈ V →
      processIncludes pm fs (fuel + 1) f V = .error (.circular f)) ∧
    (∀ f g, ReachesInc pm fs f g → pm.abs g = pm.abs f →
      ∀ (fuel : Nat) (V : List String) (q), processIncludes pm fs fuel f V ≠ .ok q) := by
  constructor
  · intro fuel f V h
    exact processIncludes_mem_error pm fs fuel f V h
  · intro f g hreach habs fuel V q hok
    obtain ⟨fuel', V₁, q', hmem, _, hok'⟩ := reaches_ok hreach fuel V q hok
    have hnot := processIncludes_ok_not_mem hok'
    rw [habs] at hnot
    exact hnot hmem

/-- Witness for C5: a visited path errors immediately even though
`fsSelfLoop` cannot read it, and the self-including file `r` never
resolves. -/
theorem c5_cycle_detection_witness :
    processIncludes pmId fsSelfLoop 4 ("z") ["z"] = .error (.circular ("z")) ∧
    processIncludes pmId fsSelfLoop 9 ("r") [] ≠ .ok ("x".data, ["r"]) :=
  ⟨(c5_cycle_detection pmId fsSelfLoop).1 3 ("z") ["z"] (by decide),
    (c5_cycle_detection pmId fsSelfLoop).2 ("r") ("r")
      (ReachesInc.direct ⟨"@include \"r\"".data, "@include \"r\"".data, "r",
        rfl, by decide, by decide, by decide, rfl⟩)
      rfl 9 [] _⟩

/-- C6: while processing a file whose content contains the marker,
exactly the lines matched by the directive pattern are replaced — each by
the fully resolved content of the file named by the captured path joined
to the current file's directory — every other line passes through
unchanged, and the output is the newline join of the per-line results. -/
theorem c6_line_replacement {pm : PathModel} {fs : FS} {fuel : Nat} {f : String}
    {V : List String} {content s : List Char} {V' : List String}
    (hread : fs f = some content) (hmark : containsSeq incMarker content = true)
    (hok : processIncludes pm fs (fuel + 1) f V = .ok (s, V')) :
    ∃ out : List (List Char), s = joinNl out ∧
      out.length = (splitOnNl content).length ∧
      ∀ i (hi : i < (splitOnNl content).length) (ho : i < out.length),
        (matchInclude ((splitOnNl content).get ⟨i, hi⟩) = none →
          out.get ⟨i, ho⟩ = (splitOnNl content).get ⟨i, hi⟩) ∧
        (∀ inc, matchInclude ((splitOnNl content).get ⟨i, hi⟩) = some inc →
          ∃ V₁ q, processIncludes pm fs fuel (pm.join (pm.dir f) inc) V₁ = .ok q ∧
            q.1 = out.get ⟨i, ho⟩) := by
  by_cases hm : pm.abs f ∈ V
  · rw [processIncludes_mem_error pm fs fuel f V hm] at hok
    simp at hok
  · simp only [processIncludes] at hok
    rw [if_neg hm] at hok
    simp only [hread] at hok
    simp only [hmark, if_true] at hok
    cases hpl : procLines (processIncludes pm fs fuel) pm f (splitOnNl content)
        (pm.abs f :: V) with
    | error e => simp [hpl] at hok
    | ok q2 =>
      simp only [hpl] at hok
      obtain ⟨out, V2⟩ := q2
      simp at hok
      obtain ⟨hs, _⟩ := hok
      obtain ⟨hlen, hspec⟩ := procLines_spec pm f (splitOnNl content)
        (pm.abs f :: V) out V2 hpl
      exact ⟨out, hs.symm, hlen, hspec⟩

/-- Witness for C6 at `fsSplice`: the directive line is replaced by the
content of `a`, the surrounding lines pass through. -/
theorem c6_line_replacement_witness :
    ∃ out : List (List Char), ("hello\nX\nbye".data : List Char) = joinNl out ∧
      out.length = (splitOnNl ("hello\n@include \"a\"\nbye".data)).length ∧
      ∀ i (hi : i < (splitOnNl ("hello\n@include \"a\"\nbye".data)).length)
        (ho : i < out.length),
        (matchInclude ((splitOnNl ("hello\n@include \"a\"\nbye".data)).get ⟨i, hi⟩) = none →
          out.get ⟨i, ho⟩ = (splitOnNl ("hello\n@include \"a\"\nbye".data)).get ⟨i, hi⟩) ∧
        (∀ inc, matchInclude
            ((splitOnNl ("hello\n@include \"a\"\nbye".data)).get ⟨i, hi⟩) = some inc →
          ∃ V₁ q, processIncludes pmId fsSplice 2 (pmId.join (pmId.dir ("r")) inc) V₁ =
              .ok q ∧ q.1 = out.get ⟨i, ho⟩) :=
  @c6_line_replacement pmId fsSplice 2 ("r") [] ("hello\n@include \"a\"\nbye".data)
    ("hello\nX\nbye".data) ["a", "r"] rfl (by decide) (by rfl)

/-- C8: a readable file none of whose lines matches the directive pattern
resolves to exactly its own text: include resolution is the identity on
directive-free content. -/
theorem c8_no_directive_identity (pm : PathModel) (fs : FS) (fuel : Nat) (f : String)
    (V : List String) (content : List Char) (hm : pm.abs f ∉ V)
    (hread : fs f = some content)
    (hnd : ∀ line ∈ splitOnNl content, matchInclude line = none) :
    processIncludes pm fs (fuel + 1) f V = .ok (content, pm.abs f :: V) := by
  simp only [processIncludes]
  rw [if_neg hm]
  simp only [hread]
  by_cases hc : containsSeq incMarker content
  · simp only [hc, if_true]
    rw [procLines_no_match _ pm f (splitOnNl content) (pm.abs f :: V) hnd]
    show Except.ok (joinNl (splitOnNl content), pm.abs f :: V) =
      Except.ok (content, pm.abs f :: V)
    rw [joinNl_splitOnNl]
  · simp only [hc, Bool.false_eq_true, if_false]

/-- Witness for C8: a two-line file with no directives is returned
verbatim. -/
theorem c8_no_directive_identity_witness :
    processIncludes pmId fsPlain 1 ("r") [] = .ok ("node 1\nother 2".data, ["r"]) :=
  c8_no_directive_identity pmId fsPlain 0 ("r") [] ("node 1\nother 2".data)
    (by decide) rfl (by decide)

end KDLC
